import Mathlib

/-!
Verification of the MathMark2PDF editor core against its specification.

The repository contains two live variants of the application component:
`src/App.tsx` (the current top-level app) and `src/unnamed/part_002` (an
alternate App variant that additionally carries the click-to-sync and
preset-saving handlers).  The definitions below are shallow embeddings of
those handlers; each definition's doc comment names the source lines it
transcribes.  React state updates are modelled by explicit state passing:
a `useState` pair becomes a field of `EditorState`, a `setX(prev => e)`
updater becomes a functional update reading the current state, and values
captured by a closure at render time are passed explicitly where they can
differ from the state at the time the closure runs (the debounced commit).
-/

/-- A deferred history commit scheduled by `handleContentChange` with
`immediate = false` (the `setTimeout` in src/App.tsx line 203 /
src/unnamed/part_002 lines 262-264).  The timeout callback is the
`updateHistory` closure of the scheduling render, so it carries the
`history` and `historyIndex` values of that render (`histClosure`,
`idxClosure`) alongside the content to commit. -/
structure PendingCommit where
  content : String
  histClosure : List String
  idxClosure : Nat
deriving DecidableEq

/-- The React state of the App component that the History Manager claims
are about: `doc.content` (an `Option` because JavaScript can store
`undefined` in it when an out-of-bounds history slot is read), the
`history` list, the `historyIndex`, and the pending debounced commit held
by `debounceRef` (`none` when no timer is pending). -/
structure EditorState where
  content : Option String
  history : List String
  historyIndex : Nat
  pending : Option PendingCommit
deriving DecidableEq

/-- The history/index update performed by `updateHistory`
(src/App.tsx lines 207-216).  src/unnamed/part_002 lines 235-250 computes
the same result: its index updater returns
`history.slice(0, prev + 1).length` when `prev < history.length`, which
equals `prev + 1` there, and `prev + 1` otherwise.

`histPrev`/`idxPrev` are the `prev` arguments the two React updaters
receive (the state at update time); `histClosure`/`idxClosure` are the
render-time values captured by the `updateHistory` closure.  A direct call
from an event handler has `histClosure = histPrev` and
`idxClosure = idxPrev`; a debounce-fired call can have older values.
`JavaScript`'s `prev[historyIndex] === newContent` on an out-of-bounds
index compares `undefined` to a string and is false, which `List.get?`
models as `none ≠ some newContent`.  `slice(0, i + 1)` clamps like
`List.take`, `push` appends, and `shift()` drops the head. -/
def updateHistoryCore (histPrev : List String) (idxPrev : Nat)
    (histClosure : List String) (idxClosure : Nat) (newContent : String) :
    List String × Nat :=
  let hist :=
    if histPrev.get? idxClosure = some newContent then histPrev
    else
      let newHistory := histPrev.take (idxClosure + 1) ++ [newContent]
      if newHistory.length > 100 then newHistory.drop 1 else newHistory
  let idx :=
    if histClosure.get? idxPrev = some newContent then idxPrev else idxPrev + 1
  (hist, idx)

/-- `updateHistory` called directly from an event handler (toolbar
insertion or an immediate commit): the closure values coincide with the
current state.  It only touches `history` and `historyIndex`
(src/App.tsx lines 207-216). -/
def updateHistory (s : EditorState) (newContent : String) : EditorState :=
  let r := updateHistoryCore s.history s.historyIndex s.history s.historyIndex newContent
  { s with history := r.1, historyIndex := r.2 }

theorem updateHistory_history (s : EditorState) (c : String) :
    (updateHistory s c).history =
      if s.history.get? s.historyIndex = some c then s.history
      else
        let newHistory := s.history.take (s.historyIndex + 1) ++ [c]
        if newHistory.length > 100 then newHistory.drop 1 else newHistory := rfl

theorem updateHistory_historyIndex (s : EditorState) (c : String) :
    (updateHistory s c).historyIndex =
      if s.history.get? s.historyIndex = some c then s.historyIndex
      else s.historyIndex + 1 := rfl

theorem updateHistory_content (s : EditorState) (c : String) :
    (updateHistory s c).content = s.content := rfl

theorem updateHistory_pending (s : EditorState) (c : String) :
    (updateHistory s c).pending = s.pending := rfl

/-- The debounce timer firing: if a commit is pending, run the captured
`updateHistory` closure against the current state and clear the slot;
otherwise nothing happens. -/
def fireDebounce (s : EditorState) : EditorState :=
  match s.pending with
  | none => s
  | some pc =>
    let r := updateHistoryCore s.history s.historyIndex pc.histClosure pc.idxClosure pc.content
    { s with history := r.1, historyIndex := r.2, pending := none }

/-- `handleContentChange` (src/App.tsx lines 197-205 /
src/unnamed/part_002 lines 252-266): set the document content, clear any
pending debounce timer, then either commit immediately or schedule a
deferred commit of this content (capturing the current render's history
and index in the closure). -/
def handleContentChange (s : EditorState) (newContent : String) (immediate : Bool) :
    EditorState :=
  let s1 : EditorState := { s with content := some newContent, pending := none }
  if immediate then updateHistory s1 newContent
  else { s1 with pending := some ⟨newContent, s1.history, s1.historyIndex⟩ }

/-- `undo` as in src/App.tsx lines 218-224: guard `historyIndex > 0`,
decrement the index and load the snapshot at the new index into the
document.  This variant does not touch the debounce timer. -/
def undo (s : EditorState) : EditorState :=
  if 0 < s.historyIndex then
    { s with historyIndex := s.historyIndex - 1,
             content := s.history.get? (s.historyIndex - 1) }
  else s

/-- `redo` as in src/App.tsx lines 226-232: guard
`historyIndex < history.length - 1`, increment the index and load the
snapshot at the new index.  The `Nat` guard agrees with the JavaScript
one: for `length = 0` both are false, and for `length ≥ 1` both say
`historyIndex + 1 < length`. -/
def redo (s : EditorState) : EditorState :=
  if s.historyIndex < s.history.length - 1 then
    { s with historyIndex := s.historyIndex + 1,
             content := s.history.get? (s.historyIndex + 1) }
  else s

/-- `undo` as in src/unnamed/part_002 lines 268-275: identical to the
src/App.tsx variant except that it first clears any pending debounce
timer (`clearTimeout(debounceRef.current)`). -/
def undoPart002 (s : EditorState) : EditorState :=
  if 0 < s.historyIndex then
    { s with historyIndex := s.historyIndex - 1,
             content := s.history.get? (s.historyIndex - 1),
             pending := none }
  else s

/-- Distinct snapshot contents for concrete traces: `i` repetitions of
the letter a. -/
def mkContent (i : Nat) : String :=
  String.mk (List.replicate i 'a')

/-- A concrete run of the History Manager: starting from the initial
single-snapshot state, commit the 100 pairwise-distinct contents
`mkContent 1, …, mkContent 100` one after another via `updateHistory`.
The 100th commit finds the history full (100 entries, index 99) and takes
the eviction path. -/
def evictTrace : EditorState :=
  (List.range 100).foldl (fun s i => updateHistory s (mkContent (i + 1)))
    { content := some (mkContent 0), history := [mkContent 0],
      historyIndex := 0, pending := none }

set_option maxRecDepth 40000 in
/-- C1: the History Manager does NOT maintain `0 ≤ index < length` on the
eviction path.  Committing a 101st distinct content into a full history
evicts the oldest snapshot (length stays 100) but still increments the
index to 100, so afterwards `index = length`: the index is out of bounds
and no longer points at the newly appended snapshot, which sits at
position 99. -/
theorem updateHistory_eviction_index_out_of_bounds :
    evictTrace.historyIndex = 100 ∧
    evictTrace.history.length = 100 ∧
    evictTrace.history.get? evictTrace.historyIndex = none ∧
    evictTrace.history.get? 99 = some (mkContent 100) := by
  refine ⟨?_, ?_, ?_, ?_⟩ <;> rfl

/-- C3: in the src/App.tsx variant, `undo` does not cancel the pending
debounced commit.  Scenario: from committed history `["a", "b"]` the user
types, producing a deferred commit of "c", then presses undo before the
700ms window elapses.  The undo rolls the document back to "a", but the
timer is still pending; when it fires, the stale `updateHistory` closure
appends "c" to the history (`["a", "b", "c"]`) after the undo.  The
src/unnamed/part_002 variant of `undo` clears the timer, so there the
stale commit never runs and history stays `["a", "b"]`. -/
theorem undo_stale_debounce_commits_after_undo :
    (undo (handleContentChange (handleContentChange
        ⟨some "a", ["a"], 0, none⟩ "b" true) "c" false)).pending =
      some ⟨"c", ["a", "b"], 1⟩ ∧
    (undo (handleContentChange (handleContentChange
        ⟨some "a", ["a"], 0, none⟩ "b" true) "c" false)).content = some "a" ∧
    (fireDebounce (undo (handleContentChange (handleContentChange
        ⟨some "a", ["a"], 0, none⟩ "b" true) "c" false))).history =
      ["a", "b", "c"] ∧
    (fireDebounce (undo (handleContentChange (handleContentChange
        ⟨some "a", ["a"], 0, none⟩ "b" true) "c" false))).historyIndex = 1 ∧
    (fireDebounce (undoPart002 (handleContentChange (handleContentChange
        ⟨some "a", ["a"], 0, none⟩ "b" true) "c" false))).history =
      ["a", "b"] ∧
    (fireDebounce (undoPart002 (handleContentChange (handleContentChange
        ⟨some "a", ["a"], 0, none⟩ "b" true) "c" false))).pending = none := by
  decide

/-- One more commit of the same content `mkContent 100` on top of
`evictTrace`: because the index is already out of bounds there, the
duplicate-suppression check compares against `undefined` and fails, and
the history ends with two identical consecutive snapshots. -/
def dupTrace : EditorState :=
  updateHistory evictTrace (mkContent 100)

set_option maxRecDepth 40000 in
/-- C4 counterexample: a reachable history (built from the initial
single-snapshot state by `updateHistory` commits alone) that contains two
consecutive identical snapshots, at positions 98 and 99. -/
theorem history_adjacent_duplicate_reachable :
    dupTrace.history.get? 98 = some (mkContent 100) ∧
    dupTrace.history.get? 99 = some (mkContent 100) ∧
    dupTrace.history.length = 100 := by
  refine ⟨?_, ?_, ?_⟩ <;> rfl

/-- Boolean check that no two consecutive entries of a history are
equal. -/
def adjDistinct : List String → Bool
  | [] => true
  | [_] => true
  | a :: b :: t => (a != b) && adjDistinct (b :: t)

theorem adjDistinct_of_cons {a : String} {t : List String}
    (h : adjDistinct (a :: t) = true) : adjDistinct t = true := by
  cases t with
  | nil => rfl
  | cons b t' =>
    simp only [adjDistinct, Bool.and_eq_true] at h
    exact h.2

theorem adjDistinct_take (l : List String) :
    ∀ n : Nat, adjDistinct l = true → adjDistinct (l.take n) = true := by
  induction l with
  | nil => intro n _; simp [adjDistinct]
  | cons a t ih =>
    intro n h
    cases n with
    | zero => rfl
    | succ m =>
      cases t with
      | nil => simp [List.take, adjDistinct]
      | cons b t' =>
        simp only [adjDistinct, Bool.and_eq_true] at h
        cases m with
        | zero => rfl
        | succ k =>
          have h2 := ih (k + 1) h.2
          show adjDistinct (a :: b :: List.take k t') = true
          simp only [adjDistinct, Bool.and_eq_true]
          exact ⟨h.1, h2⟩

theorem adjDistinct_drop_one (l : List String)
    (h : adjDistinct l = true) : adjDistinct (l.drop 1) = true := by
  cases l with
  | nil => exact h
  | cons a t => exact adjDistinct_of_cons h

theorem getLast?_take_succ (l : List String) :
    ∀ (i : Nat) (x : String), l.get? i = some x →
      (l.take (i + 1)).getLast? = some x := by
  induction l with
  | nil => intro i x h; simp [List.get?] at h
  | cons a t ih =>
    intro i x h
    cases i with
    | zero =>
      simp only [List.get?] at h
      injection h with h
      subst h
      rfl
    | succ j =>
      have h' : t.get? j = some x := h
      have ht := ih j x h'
      show (a :: t.take (j + 1)).getLast? = some x
      cases htake : t.take (j + 1) with
      | nil => rw [htake] at ht; simp at ht
      | cons c r =>
        rw [htake] at ht
        rw [List.getLast?_cons_cons]
        exact ht

theorem adjDistinct_append_last (l : List String) (c : String)
    (h : adjDistinct l = true)
    (hl : ∀ x, l.getLast? = some x → x ≠ c) :
    adjDistinct (l ++ [c]) = true := by
  induction l with
  | nil => rfl
  | cons a t ih =>
    cases t with
    | nil =>
      have hac : a ≠ c := hl a rfl
      show adjDistinct (a :: c :: []) = true
      simp [adjDistinct, hac]
    | cons b t' =>
      simp only [adjDistinct, Bool.and_eq_true] at h
      have hl' : ∀ x, (b :: t').getLast? = some x → x ≠ c := by
        intro x hx
        exact hl x ((List.getLast?_cons_cons (l := t')).trans hx)
      have ih' := ih h.2 hl'
      show adjDistinct (a :: ((b :: t') ++ [c])) = true
      simp only [List.cons_append] at ih' ⊢
      simp only [adjDistinct, Bool.and_eq_true]
      exact ⟨by simpa using h.1, by simpa [adjDistinct] using ih'⟩

/-- C4 (amended): as long as the index is in bounds, a commit of the
content at the current index leaves the whole state unchanged, and a
commit preserves the no-consecutive-duplicates invariant of the history.
(The unamended claim fails only through the eviction slip of C1, which
drives the index out of bounds; see
`history_adjacent_duplicate_reachable`.) -/
theorem updateHistory_no_adjacent_duplicates_inbounds
    (s : EditorState) (c : String)
    (hidx : s.historyIndex < s.history.length) :
    (s.history.get? s.historyIndex = some c → updateHistory s c = s) ∧
    (adjDistinct s.history = true →
      adjDistinct (updateHistory s c).history = true) := by
  constructor
  · intro h
    have e1 : (updateHistory s c).history = s.history := by
      rw [updateHistory_history, if_pos h]
    have e2 : (updateHistory s c).historyIndex = s.historyIndex := by
      rw [updateHistory_historyIndex, if_pos h]
    calc updateHistory s c
        = ⟨(updateHistory s c).content, (updateHistory s c).history,
           (updateHistory s c).historyIndex, (updateHistory s c).pending⟩ := rfl
      _ = s := by
          rw [e1, e2, updateHistory_content, updateHistory_pending]
  · intro hadj
    by_cases hd : s.history.get? s.historyIndex = some c
    · rw [updateHistory_history, if_pos hd]
      exact hadj
    · obtain ⟨x, hx⟩ : ∃ x, s.history.get? s.historyIndex = some x := by
        rw [List.get?_eq_get hidx]; exact ⟨_, rfl⟩
      have hxc : x ≠ c := fun he => hd (he ▸ hx)
      have htake := adjDistinct_take s.history (s.historyIndex + 1) hadj
      have hlast := getLast?_take_succ s.history s.historyIndex x hx
      have happ := adjDistinct_append_last (s.history.take (s.historyIndex + 1)) c
        htake (by intro y hy; rw [hlast] at hy; injection hy with hy; exact hy ▸ hxc)
      rw [updateHistory_history, if_neg hd]
      show adjDistinct
        (if (s.history.take (s.historyIndex + 1) ++ [c]).length > 100
          then (s.history.take (s.historyIndex + 1) ++ [c]).drop 1
          else s.history.take (s.historyIndex + 1) ++ [c]) = true
      split
      · exact adjDistinct_drop_one _ happ
      · exact happ

/-- Witness for `updateHistory_no_adjacent_duplicates_inbounds` at the
concrete state `(["a", "b"], index 1)` and content "b". -/
theorem updateHistory_no_adjacent_duplicates_inbounds_witness :
    updateHistory ⟨some "b", ["a", "b"], 1, none⟩ "b" =
      ⟨some "b", ["a", "b"], 1, none⟩ ∧
    adjDistinct (updateHistory ⟨some "b", ["a", "b"], 1, none⟩ "b").history
      = true := by
  have h := updateHistory_no_adjacent_duplicates_inbounds
    ⟨some "b", ["a", "b"], 1, none⟩ "b" (by decide)
  exact ⟨h.1 (by decide), h.2 (by decide)⟩

set_option maxRecDepth 40000 in
/-- C6 counterexample: `evictTrace` is a reachable state with
`historyIndex = 100 > 0`, but `undo` then `redo` leaves the index at 99
instead of returning it to 100 (the redo guard
`historyIndex < length - 1` fails because the eviction slip left the
index out of bounds). -/
theorem undo_redo_not_inverse_after_eviction :
    0 < evictTrace.historyIndex ∧
    evictTrace.historyIndex = 100 ∧
    (redo (undo evictTrace)).historyIndex = 99 := by
  refine ⟨by decide, ?_, ?_⟩ <;> rfl

/-- C6 (amended): for every history state whose index is strictly inside
the history (`0 < index < length`), `undo` followed by `redo` restores
the pre-undo index, leaves the snapshot sequence unchanged, and sets the
document content to the snapshot at that index — the content that was
current before the undo whenever that content had been committed. -/
theorem undo_redo_roundtrip_inbounds (s : EditorState)
    (h0 : 0 < s.historyIndex) (h1 : s.historyIndex < s.history.length) :
    (redo (undo s)).historyIndex = s.historyIndex ∧
    (redo (undo s)).history = s.history ∧
    (redo (undo s)).content = s.history.get? s.historyIndex := by
  have hu : undo s = { s with
      historyIndex := s.historyIndex - 1,
      content := s.history.get? (s.historyIndex - 1) } := by
    rw [undo, if_pos h0]
  have h2 : s.historyIndex - 1 < s.history.length - 1 := by omega
  have h3 : s.historyIndex - 1 + 1 = s.historyIndex := by omega
  rw [hu]
  simp [redo, h2, h3]

/-- Witness for `undo_redo_roundtrip_inbounds` at the concrete state
`(["a", "b"], index 1)`. -/
theorem undo_redo_roundtrip_inbounds_witness :
    (redo (undo ⟨some "b", ["a", "b"], 1, none⟩)).historyIndex = 1 ∧
    (redo (undo ⟨some "b", ["a", "b"], 1, none⟩)).content = some "b" := by
  have h := undo_redo_roundtrip_inbounds ⟨some "b", ["a", "b"], 1, none⟩
    (by decide) (by decide)
  exact ⟨h.1, h.2.2.trans rfl⟩

/-- A burst of non-immediate `record` calls, each made before the
previous one's debounce timer fires (so each `handleContentChange`
cancels the previous pending commit and schedules its own). -/
def burst (s : EditorState) (cs : List String) : EditorState :=
  cs.foldl (fun t c => handleContentChange t c false) s

theorem handleContentChange_deferred_collapse (s : EditorState) (c c' : String) :
    handleContentChange (handleContentChange s c false) c' false =
      handleContentChange s c' false := rfl

theorem burst_eq_single :
    ∀ (cs : List String) (s : EditorState) (last : String),
      cs.getLast? = some last →
      burst s cs = handleContentChange s last false := by
  intro cs
  induction cs with
  | nil => intro s last h; simp [List.getLast?] at h
  | cons c t ih =>
    intro s last h
    cases t with
    | nil =>
      have hc : c = last := by simpa [List.getLast?] using h
      subst hc
      rfl
    | cons c' t' =>
      have h' : (c' :: t').getLast? = some last := by
        rwa [List.getLast?_cons_cons] at h
      have step : burst s (c :: c' :: t') =
          burst (handleContentChange s c false) (c' :: t') := rfl
      rw [step, ih _ last h']
      exact handleContentChange_deferred_collapse s c last

theorem fireDebounce_deferred (s : EditorState) (c : String) :
    (fireDebounce (handleContentChange s c false)).history =
      (updateHistory s c).history := rfl

/-- C5 (amended): a burst of non-immediate `record` calls inside the
debounce window is equivalent to a single non-immediate record of the
LAST call's content: no commit happens during the burst, exactly one
deferred commit (of the last content) is pending afterwards, and when the
window elapses at most one entry is committed.  If the last content
equals the snapshot at the current index, no entry is committed at all;
if it differs, exactly one entry — the last content — is appended as the
new history tail after truncating redo entries, with the oldest entry
additionally evicted when the append exceeds the 100-entry cap. -/
theorem debounced_record_coalesces (s : EditorState) (cs : List String)
    (last : String) (h : cs.getLast? = some last) :
    burst s cs = handleContentChange s last false ∧
    (burst s cs).history = s.history ∧
    (burst s cs).historyIndex = s.historyIndex ∧
    (burst s cs).pending = some ⟨last, s.history, s.historyIndex⟩ ∧
    (s.history.get? s.historyIndex = some last →
      (fireDebounce (burst s cs)).history = s.history) ∧
    (s.history.get? s.historyIndex ≠ some last →
      (fireDebounce (burst s cs)).history.getLast? = some last ∧
      (fireDebounce (burst s cs)).history =
        (if (s.history.take (s.historyIndex + 1) ++ [last]).length > 100
          then (s.history.take (s.historyIndex + 1) ++ [last]).drop 1
          else s.history.take (s.historyIndex + 1) ++ [last])) := by
  have ha := burst_eq_single cs s last h
  refine ⟨ha, by rw [ha]; rfl, by rw [ha]; rfl, by rw [ha]; rfl, ?_, ?_⟩
  · intro hd
    rw [ha, fireDebounce_deferred, updateHistory_history, if_pos hd]
  · intro hne
    have he : (fireDebounce (burst s cs)).history =
        (if (s.history.take (s.historyIndex + 1) ++ [last]).length > 100
          then (s.history.take (s.historyIndex + 1) ++ [last]).drop 1
          else s.history.take (s.historyIndex + 1) ++ [last]) := by
      rw [ha, fireDebounce_deferred, updateHistory_history, if_neg hne]
    refine ⟨?_, he⟩
    rw [he]
    by_cases hcap :
      (s.history.take (s.historyIndex + 1) ++ [last]).length > 100
    · rw [if_pos hcap]
      have htl : 1 ≤ (s.history.take (s.historyIndex + 1)).length := by
        have h2 : (s.history.take (s.historyIndex + 1)).length + 1 > 100 := by
          simpa using hcap
        omega
      rw [List.drop_append_of_le_length htl, List.getLast?_concat]
    · rw [if_neg hcap, List.getLast?_concat]

/-- Witness for `debounced_record_coalesces`: from the committed state
`(["a"], index 0)`, a burst recording "x" then "y" commits exactly the
single entry "y" when the window elapses. -/
theorem debounced_record_coalesces_witness :
    (fireDebounce (burst ⟨some "a", ["a"], 0, none⟩ ["x", "y"])).history =
      ["a", "y"] := by
  have h := debounced_record_coalesces ⟨some "a", ["a"], 0, none⟩
    ["x", "y"] "y" rfl
  exact ((h.2.2.2.2.2 (by decide)).2).trans rfl

/-- C5 counterexample: the claim "exactly one history entry is committed
after the window elapses, and it equals the content of the last call" is
false when the last content equals the snapshot at the current index.
From committed state `(["a"], index 0)`, a burst recording "ab" then "a"
(the user types and reverts within the 700ms window) commits NOTHING when
the timer fires: the history is still the single snapshot `["a"]`. -/
theorem debounce_revert_commits_nothing :
    (fireDebounce (burst ⟨some "a", ["a"], 0, none⟩ ["ab", "a"])).history =
      ["a"] ∧
    (fireDebounce (burst ⟨some "a", ["a"], 0, none⟩ ["ab", "a"])).pending =
      none := by
  decide

/-- A JavaScript number as needed by the scroll-ratio computation: an
exact finite value, `NaN`, or a signed infinity.  The operations below
only have to be exact about finiteness/NaN-ness, which IEEE 754 rounding
never affects for these inputs (the interesting case is an exact `0/0`). -/
inductive JSVal where
  | num : ℚ → JSVal
  | nan : JSVal
  | inf : JSVal
  | ninf : JSVal
deriving DecidableEq

/-- JavaScript division of two finite numbers: division by zero yields
`NaN` for a zero numerator and a signed infinity otherwise. -/
def jsDiv (a b : ℚ) : JSVal :=
  if b = 0 then
    if a = 0 then JSVal.nan else if 0 < a then JSVal.inf else JSVal.ninf
  else JSVal.num (a / b)

/-- JavaScript multiplication of a possibly non-finite number by a finite
one: `NaN` is absorbing, and an infinity times zero is `NaN`. -/
def jsMul (x : JSVal) (b : ℚ) : JSVal :=
  match x with
  | JSVal.num a => JSVal.num (a * b)
  | JSVal.nan => JSVal.nan
  | JSVal.inf => if b = 0 then JSVal.nan else if 0 < b then JSVal.inf else JSVal.ninf
  | JSVal.ninf => if b = 0 then JSVal.nan else if 0 < b then JSVal.ninf else JSVal.inf

/-- Scroll geometry of one pane, as read from the DOM (always finite). -/
structure Pane where
  scrollTop : ℚ
  scrollHeight : ℚ
  clientHeight : ℚ
deriving DecidableEq

/-- `handleScroll` (src/App.tsx lines 163-174), one direction; the code
is symmetric in the two panes.  `percentage` is
`src.scrollTop / (src.scrollHeight - src.clientHeight)` with no guard,
and this is the value assigned to `dst.scrollTop`:
`percentage * (dst.scrollHeight - dst.clientHeight)`. -/
def handleScrollAssigned (src dst : Pane) : JSVal :=
  let percentage := jsDiv src.scrollTop (src.scrollHeight - src.clientHeight)
  jsMul percentage (dst.scrollHeight - dst.clientHeight)

/-- The src/unnamed/part_002 variant (lines 219-232) additionally guards
the write with `Math.abs(dst.scrollTop - targetScroll) > 10`; any
comparison against `NaN` is false in JavaScript, so a `NaN` target is
(accidentally) never written. -/
def handleScrollWritesPart002 (src dst : Pane) : Bool :=
  match handleScrollAssigned src dst with
  | JSVal.num q => decide (10 < |dst.scrollTop - q|)
  | JSVal.nan => false
  | JSVal.inf => true
  | JSVal.ninf => true

/-- C2: the scroll-ratio computation has NO division-by-zero guard.  When
the source pane's content fits without scrolling
(`scrollHeight = clientHeight`, hence `scrollTop = 0`), the computed
ratio is `0/0 = NaN` — not the 0 the claim requires — and the value
assigned to the other pane's `scrollTop` in src/App.tsx is `NaN`, not a
finite number.  (The part_002 variant computes the same `NaN` ratio but
its jitter threshold accidentally skips the write, since `NaN > 10` is
false; it never writes the claimed ratio-0 value either.) -/
theorem handleScroll_nan_when_content_fits (dst : Pane) :
    jsDiv (Pane.mk 0 500 500).scrollTop
        ((Pane.mk 0 500 500).scrollHeight - (Pane.mk 0 500 500).clientHeight) =
      JSVal.nan ∧
    handleScrollAssigned (Pane.mk 0 500 500) dst = JSVal.nan ∧
    handleScrollWritesPart002 (Pane.mk 0 500 500) dst = false := by
  refine ⟨?_, ?_, ?_⟩ <;>
    simp [jsDiv, jsMul, handleScrollAssigned, handleScrollWritesPart002]

/-- JavaScript `String.prototype.split('\n')`: splitting on every
newline, keeping empty segments (so the result always has one more
segment than there are newlines). -/
def splitOnNewline : List Char → List (List Char)
  | [] => [[]]
  | c :: t =>
    if c = '\n' then [] :: splitOnNewline t
    else
      match splitOnNewline t with
      | h :: r => (c :: h) :: r
      | [] => [[c]]

/-- The clicked 1-based line computed by `handleEditorClick`
(src/unnamed/part_002 lines 508-512):
`value.substring(0, cursorPosition).split('\n').length`. -/
def handleEditorClickLine (value : List Char) (cursorPosition : Nat) : Nat :=
  (splitOnNewline (value.take cursorPosition)).length

/-- The node resolution of `handleEditorClick`
(src/unnamed/part_002 lines 517-527): over the `data-line` annotations of
the rendered nodes in document order, take the first one `≥` the clicked
line; if none, take the first one `≤` the clicked line in the reversed
order (i.e. the last such node).  Returns the chosen annotation. -/
def handleEditorClickTarget (elements : List Nat) (lineNumber : Nat) :
    Option Nat :=
  match elements.find? (fun l => decide (lineNumber ≤ l)) with
  | some el => some el
  | none => elements.reverse.find? (fun l => decide (l ≤ lineNumber))

theorem splitOnNewline_ne_nil (l : List Char) : splitOnNewline l ≠ [] := by
  cases l with
  | nil => simp [splitOnNewline]
  | cons c t =>
    by_cases hc : c = '\n'
    · simp [splitOnNewline, hc]
    · simp only [splitOnNewline, if_neg hc]
      cases splitOnNewline t <;> simp

theorem splitOnNewline_length (l : List Char) :
    (splitOnNewline l).length = l.count '\n' + 1 := by
  induction l with
  | nil => rfl
  | cons c t ih =>
    by_cases hc : c = '\n'
    · subst hc
      simp [splitOnNewline, List.count_cons, ih]
    · obtain ⟨h0, r, hr⟩ : ∃ h0 r, splitOnNewline t = h0 :: r := by
        cases e : splitOnNewline t with
        | nil => exact absurd e (splitOnNewline_ne_nil t)
        | cons h0 r => exact ⟨h0, r, rfl⟩
      rw [hr] at ih
      simp only [splitOnNewline, if_neg hc, hr, List.count_cons, List.length_cons]
      simp only [List.length_cons] at ih
      simp [hc]
      omega

theorem handleEditorClickTarget_first_ge :
    ∀ (lines : List Nat) (c i : Nat), i < lines.length →
      (∀ j, j < i → lines.getD j 0 < c) → c ≤ lines.getD i 0 →
      handleEditorClickTarget lines c = some (lines.getD i 0) := by
  intro lines
  induction lines with
  | nil => intro c i hi; simp at hi
  | cons a t ih =>
    intro c i hi hlt hge
    cases i with
    | zero =>
      have hp : (fun l => decide (c ≤ l)) a = true := decide_eq_true hge
      unfold handleEditorClickTarget
      rw [List.find?_cons_of_pos (p := fun l => decide (c ≤ l)) _ hp]
      rfl
    | succ j =>
      have ha : a < c := hlt 0 (Nat.succ_pos j)
      have hpa : ¬ ((fun l => decide (c ≤ l)) a = true) :=
        fun hh => Nat.not_le.mpr ha (of_decide_eq_true hh)
      have hfind : (a :: t).find? (fun l => decide (c ≤ l)) =
          t.find? (fun l => decide (c ≤ l)) := List.find?_cons_of_neg _ hpa
      have hj : j < t.length := Nat.lt_of_succ_lt_succ hi
      have hge' : c ≤ t.getD j 0 := hge
      have hmem : t.getD j 0 ∈ t := by
        rw [List.getD_eq_getElem t 0 hj]
        exact List.get_mem t j hj
      obtain ⟨x, hx⟩ : ∃ x, t.find? (fun l => decide (c ≤ l)) = some x := by
        cases e : t.find? (fun l => decide (c ≤ l)) with
        | some x => exact ⟨x, rfl⟩
        | none =>
          exact absurd (decide_eq_true hge') (List.find?_eq_none.mp e (t.getD j 0) hmem)
      have ihc := ih c j hj (fun k hk => hlt (k + 1) (Nat.succ_lt_succ hk)) hge'
      have e1 : handleEditorClickTarget t c = some x := by
        unfold handleEditorClickTarget
        rw [hx]
      have e2 : handleEditorClickTarget (a :: t) c = some x := by
        unfold handleEditorClickTarget
        rw [hfind, hx]
      exact e2.trans (e1.symm.trans ihc)

theorem handleEditorClickTarget_fallback_last (lines : List Nat) (c : Nat)
    (hall : ∀ x ∈ lines, x < c) :
    handleEditorClickTarget lines c = lines.getLast? := by
  have hnone : lines.find? (fun l => decide (c ≤ l)) = none := by
    apply List.find?_eq_none.mpr
    intro x hx
    simp
    exact hall x hx
  have hfind : lines.reverse.find? (fun l => decide (l ≤ c)) =
      lines.reverse.head? := by
    cases e : lines.reverse with
    | nil => rfl
    | cons y ys =>
      have hy : y ∈ lines := by
        rw [← List.mem_reverse, e]
        exact List.mem_cons_self y ys
      have hp : (fun l => decide (l ≤ c)) y = true := by
        simp
        exact Nat.le_of_lt (hall y hy)
      rw [List.find?_cons_of_pos (p := fun l => decide (l ≤ c)) _ hp]
      rfl
  simp [handleEditorClickTarget, hnone, hfind, List.head?_reverse]

/-- C7: the clicked line is the number of newlines before the caret plus
one (in particular 3 for content "line1\nline2\nline3" with the caret at
index 12); the resolved node annotation is the first one (in document
order) `≥` the clicked line when one exists, otherwise — when every
annotation is below the clicked line — the last annotated node; with
annotations [2, 5, 9] a click at line 6 resolves to 9 and a click at
line 12 also resolves to 9; and with no annotated nodes the resolution is
`none` (the click is a no-op). -/
theorem handleEditorClick_resolution :
    (∀ (value : List Char) (cursorPosition : Nat),
      handleEditorClickLine value cursorPosition =
        (value.take cursorPosition).count '\n' + 1) ∧
    handleEditorClickLine (String.toList "line1\nline2\nline3") 12 = 3 ∧
    (∀ (lines : List Nat) (c i : Nat), i < lines.length →
      (∀ j, j < i → lines.getD j 0 < c) → c ≤ lines.getD i 0 →
      handleEditorClickTarget lines c = some (lines.getD i 0)) ∧
    (∀ (lines : List Nat) (c : Nat), (∀ x ∈ lines, x < c) →
      handleEditorClickTarget lines c = lines.getLast?) ∧
    handleEditorClickTarget [2, 5, 9] 6 = some 9 ∧
    handleEditorClickTarget [2, 5, 9] 12 = some 9 ∧
    (∀ c : Nat, handleEditorClickTarget [] c = none) := by
  refine ⟨fun value cursorPosition => splitOnNewline_length _,
    by decide, handleEditorClickTarget_first_ge,
    handleEditorClickTarget_fallback_last, by decide, by decide,
    fun c => rfl⟩

/-- Witness for `handleEditorClick_resolution` at the concrete
annotation list [2, 5, 9]: clicked line 6 resolves via the ascending scan
to position 2 (annotation 9), clicked line 12 via the descending fallback
to the last annotation. -/
theorem handleEditorClick_resolution_witness :
    handleEditorClickTarget [2, 5, 9] 6 = some ([2, 5, 9].getD 2 0) ∧
    handleEditorClickTarget [2, 5, 9] 12 = [2, 5, 9].getLast? := by
  exact ⟨handleEditorClick_resolution.2.2.1 [2, 5, 9] 6 2 (by decide)
      (by decide) (by decide),
    handleEditorClick_resolution.2.2.2.1 [2, 5, 9] 12 (by decide)⟩

/-- The editor font-size setting
(`FontSize` in src/types.ts: Small, Medium, Large, Extra Large). -/
inductive FontSize where
  | Small
  | Medium
  | Large
  | ExtraLarge
deriving DecidableEq

/-- `lineHeightMap` (src/unnamed/part_002 lines 49-54 / src/App.tsx
lines 27-29): fixed line heights in pixels per font-size setting. -/
def lineHeightMap : FontSize → Nat
  | FontSize.Small => 20
  | FontSize.Medium => 24
  | FontSize.Large => 28
  | FontSize.ExtraLarge => 32

/-- The scroll offset `handlePreviewClick` gives the editor pane
(src/unnamed/part_002 lines 543-561): `(line - 1) * lineHeight`, with the
fixed `lineHeightMap` lookup for the current font size, minus the 100px
context margin of the `scrollTo` call. -/
def handlePreviewClickScroll (fontSize : FontSize) (line : Nat) : Int :=
  let lineHeight : Int := lineHeightMap fontSize
  let scrollPos := ((line : Int) - 1) * lineHeight
  scrollPos - 100

/-- C8: on a preview click resolving to line annotation `line`, the
editor is scrolled to `(line - 1) * lineHeight - 100` where `lineHeight`
is the fixed lookup value 20/24/28/32 for Small/Medium/Large/Extra Large
(equivalently `lineHeight * line - lineHeight - 100` in closed form per
font size). -/
theorem handlePreviewClick_scroll_offset :
    (∀ (fs : FontSize) (line : Nat),
      handlePreviewClickScroll fs line =
        ((line : Int) - 1) * (lineHeightMap fs : Int) - 100) ∧
    lineHeightMap FontSize.Small = 20 ∧
    lineHeightMap FontSize.Medium = 24 ∧
    lineHeightMap FontSize.Large = 28 ∧
    lineHeightMap FontSize.ExtraLarge = 32 ∧
    (∀ line : Nat,
      handlePreviewClickScroll FontSize.Small line = 20 * (line : Int) - 120) ∧
    (∀ line : Nat,
      handlePreviewClickScroll FontSize.Medium line = 24 * (line : Int) - 124) ∧
    (∀ line : Nat,
      handlePreviewClickScroll FontSize.Large line = 28 * (line : Int) - 128) ∧
    (∀ line : Nat,
      handlePreviewClickScroll FontSize.ExtraLarge line =
        32 * (line : Int) - 132) := by
  refine ⟨fun fs line => rfl, rfl, rfl, rfl, rfl, ?_, ?_, ?_, ?_⟩ <;>
    · intro line
      simp only [handlePreviewClickScroll, lineHeightMap]
      push_cast
      ring

/-- A saved snippet (`Preset` in src/types.ts). -/
structure Preset where
  id : String
  name : String
  content : String
deriving DecidableEq

/-- `DEFAULT_PRESETS` (src/unnamed/part_002 lines 17-38 / src/App.tsx
lines 16-21). -/
def DEFAULT_PRESETS : List Preset :=
  [⟨"default-1", "Info Callout", "> ℹ️ **Info:** "⟩,
   ⟨"default-2", "Math Block",
    "\n$$\n f(x) = \\int_\x7b-\\infty\x7d^\\infty \\hat f(\\xi)\\,e^\x7b2\\pi i \\xi x\x7d \\,d\\xi \n$$\n"⟩,
   ⟨"default-3", "Checklist", "- [ ] To Do\n- [ ] In Progress\n- [ ] Done"⟩,
   ⟨"default-4", "Signature", "\n---\n*Generated with **MathMark2PDF***"⟩]

/-- `handleSavePreset` (src/unnamed/part_002 lines 342-362): take the
selected text `doc.content.substring(start, end)`; if it is empty or
whitespace-only — `!selectedText.trim()` is truthy exactly when every
character of the selection is whitespace — alert and leave the presets
unchanged; otherwise append one preset whose id is
`Date.now().toString()` (`now` is the millisecond clock reading), whose
name is the given name and whose content is the selected text. -/
def handleSavePreset (content : String) (selectionStart selectionEnd : Nat)
    (name : String) (now : Nat) (presets : List Preset) : List Preset :=
  let selected := (content.toList.take selectionEnd).drop selectionStart
  if selected.all Char.isWhitespace then presets
  else presets ++ [⟨toString now, name, String.mk selected⟩]

/-- The preset-save handler the current src/App.tsx actually wires into
the toolbar (line 409): `onSavePreset={(name) => {}}` — a no-op that
ignores the name and changes nothing. -/
def onSavePresetApp (name : String) (presets : List Preset) : List Preset :=
  presets

/-- The persistence effect (src/unnamed/part_002 lines 207-210 /
src/App.tsx lines 159-161): on every change the whole preset collection
is written to local storage under the fixed key. -/
def persistPresets (presets : List Preset) : Option (List Preset) :=
  some presets

/-- Loading presets at startup (src/unnamed/part_002 lines 170-186): a
stored non-empty array is used as-is; a missing or empty one falls back
to the defaults. -/
def loadPresets (stored : Option (List Preset)) : List Preset :=
  match stored with
  | some ps => if ps.length > 0 then ps else DEFAULT_PRESETS
  | none => DEFAULT_PRESETS

/-- C9: preset saving.  The part_002 handler `handleSavePreset` behaves
as the claim states: a whitespace-only selection is rejected without
modifying the collection; the selection "**bold**" appends exactly one
preset with that content and the stringified clock as id (distinct from
all existing ids whenever that string is not already among them, e.g.
under a monotone millisecond clock); and a non-empty persisted collection
survives a reload.  But the current src/App.tsx wires the toolbar's save
action to a no-op, so there saving "**bold**" as "b" changes nothing and
nothing is persisted — the claim fails on that variant. -/
theorem savePreset_behavior :
    (∀ (name : String) (presets : List Preset),
      onSavePresetApp name presets = presets) ∧
    (∀ (content : String) (selectionStart selectionEnd : Nat) (name : String)
        (now : Nat) (presets : List Preset),
      ((content.toList.take selectionEnd).drop selectionStart).all
          Char.isWhitespace = true →
      handleSavePreset content selectionStart selectionEnd name now presets =
        presets) ∧
    (∀ (name : String) (now : Nat) (presets : List Preset),
      handleSavePreset "**bold**" 0 8 name now presets =
        presets ++ [⟨toString now, name, "**bold**"⟩]) ∧
    (∀ (content : String) (selectionStart selectionEnd : Nat) (name : String)
        (now : Nat) (presets : List Preset),
      toString now ∉ presets.map Preset.id →
      (presets.map Preset.id).Nodup →
      ((handleSavePreset content selectionStart selectionEnd name now
          presets).map Preset.id).Nodup) ∧
    (∀ presets : List Preset, presets ≠ [] →
      loadPresets (persistPresets presets) = presets) := by
  refine ⟨fun _ _ => rfl, ?_, ?_, ?_, ?_⟩
  · intro content selectionStart selectionEnd name now presets h
    simp only [handleSavePreset]
    rw [if_pos h]
  · intro name now presets
    simp only [handleSavePreset]
    rw [if_neg (by decide)]
    rfl
  · intro content selectionStart selectionEnd name now presets hnotin hnodup
    by_cases h :
      ((content.toList.take selectionEnd).drop selectionStart).all
        Char.isWhitespace = true
    · simp only [handleSavePreset]
      rw [if_pos h]
      exact hnodup
    · simp only [handleSavePreset]
      rw [if_neg h, List.map_append]
      refine List.Nodup.append hnodup (List.nodup_singleton _) ?_
      intro x hx hx2
      simp only [List.map_cons, List.map_nil, List.mem_singleton] at hx2
      subst hx2
      exact hnotin hx
  · intro presets hne
    simp only [persistPresets, loadPresets]
    rw [if_pos (List.length_pos.mpr hne)]

/-- Witness for `savePreset_behavior`: rejection of a whitespace-only
selection, the concrete append for selection "**bold**" named "b" at
clock reading 99, id-uniqueness on a collection holding a default id,
and persistence round-trip of the resulting collection. -/
theorem savePreset_behavior_witness :
    handleSavePreset "   " 0 3 "b" 5 [] = [] ∧
    handleSavePreset "**bold**" 0 8 "b" 99 [] = [⟨"99", "b", "**bold**"⟩] ∧
    ((handleSavePreset "**bold**" 0 8 "b" 99
        [⟨"default-1", "x", "y"⟩]).map Preset.id).Nodup ∧
    loadPresets (persistPresets [⟨"99", "b", "**bold**"⟩]) =
      [⟨"99", "b", "**bold**"⟩] := by
  refine ⟨savePreset_behavior.2.1 "   " 0 3 "b" 5 [] (by decide),
    (savePreset_behavior.2.2.1 "b" 99 []).trans rfl,
    savePreset_behavior.2.2.2.1 "**bold**" 0 8 "b" 99
      [⟨"default-1", "x", "y"⟩] (by decide) (by decide),
    savePreset_behavior.2.2.2.2 [⟨"99", "b", "**bold**"⟩] (by decide)⟩

/-- `InsertType` (src/types.ts). -/
inductive InsertType where
  | bold
  | italic
  | strike
  | h1
  | h2
  | h3
  | link
  | image
  | quote
  | code
  | codeBlock
  | math
  | ul
  | ol
  | check
  | table
  | line
deriving DecidableEq

/-- The JavaScript `selected || 'default'`: an empty selection string is
falsy, so the default is used in its place. -/
def orDefault (selected d : List Char) : List Char :=
  if selected.isEmpty then d else selected

/-- The `insertion` string built by the `switch` of `insertMarkdown`
(src/unnamed/part_001 lines 16-85), per insert type, from the selected
text.  Text is modelled as `List Char`. -/
def insertionOf : InsertType → List Char → List Char
  | InsertType.bold, selected =>
      ("**".toList) ++ orDefault selected ("bold text".toList) ++ ("**".toList)
  | InsertType.italic, selected =>
      ("*".toList) ++ orDefault selected ("italic text".toList) ++ ("*".toList)
  | InsertType.strike, selected =>
      ("~~".toList) ++ orDefault selected ("strikethrough".toList) ++ ("~~".toList)
  | InsertType.h1, selected => ("# ".toList) ++ orDefault selected ("Heading 1".toList)
  | InsertType.h2, selected => ("## ".toList) ++ orDefault selected ("Heading 2".toList)
  | InsertType.h3, selected => ("### ".toList) ++ orDefault selected ("Heading 3".toList)
  | InsertType.link, selected =>
      ("[".toList) ++ orDefault selected ("link text".toList) ++ ("](url)".toList)
  | InsertType.image, selected =>
      ("![".toList) ++ orDefault selected ("alt text".toList) ++ ("](image_url)".toList)
  | InsertType.quote, selected =>
      ("\n> ".toList) ++ orDefault selected ("Blockquote".toList) ++ ("\n".toList)
  | InsertType.code, selected =>
      ("`".toList) ++ orDefault selected ("code".toList) ++ ("`".toList)
  | InsertType.codeBlock, selected =>
      ("\n```\n".toList) ++ orDefault selected ("code block".toList) ++ ("\n```\n".toList)
  | InsertType.math, selected =>
      ("\n$$\n".toList) ++ orDefault selected ("E = mc^2".toList) ++ ("\n$$\n".toList)
  | InsertType.ul, selected => ("\n- ".toList) ++ orDefault selected ("List item".toList)
  | InsertType.ol, selected => ("\n1. ".toList) ++ orDefault selected ("List item".toList)
  | InsertType.check, selected =>
      ("\n- [ ] ".toList) ++ orDefault selected ("Task item".toList)
  | InsertType.table, _ =>
      ("\n| Header 1 | Header 2 |\n| -------- | -------- |\n| Cell 1   | Cell 2   |\n".toList)
  | InsertType.line, _ => ("\n---\n".toList)

/-- The `cursorOffset` computed by the same `switch`
(src/unnamed/part_001 lines 16-85). -/
def cursorOffsetOf : InsertType → List Char → Nat
  | InsertType.bold, selected =>
      if selected.isEmpty then 2 + 9 + 2 else 2 + selected.length + 2
  | InsertType.italic, selected =>
      if selected.isEmpty then 1 + 11 + 1 else 1 + selected.length + 1
  | InsertType.strike, selected =>
      if selected.isEmpty then 2 + 13 + 2 else 2 + selected.length + 2
  | InsertType.h1, selected => 2 + (orDefault selected ("Heading 1".toList)).length
  | InsertType.h2, selected => 3 + (orDefault selected ("Heading 2".toList)).length
  | InsertType.h3, selected => 4 + (orDefault selected ("Heading 3".toList)).length
  | InsertType.link, selected => 1 + (orDefault selected ("link text".toList)).length + 1
  | InsertType.image, selected => 2 + (orDefault selected ("alt text".toList)).length + 1
  | InsertType.quote, selected => 3 + (orDefault selected ("Blockquote".toList)).length + 1
  | InsertType.code, selected => 1 + (orDefault selected ("code".toList)).length + 1
  | InsertType.codeBlock, selected =>
      5 + (orDefault selected ("code block".toList)).length + 4
  | InsertType.math, selected => 4 + (orDefault selected ("E = mc^2".toList)).length + 4
  | InsertType.ul, selected => 3 + (orDefault selected ("List item".toList)).length
  | InsertType.ol, selected => 4 + (orDefault selected ("List item".toList)).length
  | InsertType.check, selected => 7 + (orDefault selected ("Task item".toList)).length
  | InsertType.table, selected => (insertionOf InsertType.table selected).length
  | InsertType.line, _ => 5

/-- `insertMarkdown` (src/unnamed/part_001 lines 3-91): split the text
at the selection (`substring`, modelled by `take`/`drop` on the character
list), build the insertion and cursor offset for the insert type, and
return the new text and cursor. -/
def insertMarkdown (text : List Char) (t : InsertType)
    (selectionStart selectionEnd : Nat) : List Char × Nat :=
  let before := text.take selectionStart
  let selected := (text.take selectionEnd).drop selectionStart
  let after := text.drop selectionEnd
  (before ++ insertionOf t selected ++ after,
   selectionStart + cursorOffsetOf t selected)

theorem cursorOffsetOf_le_length (t : InsertType) (selected : List Char) :
    cursorOffsetOf t selected ≤ (insertionOf t selected).length := by
  by_cases h : selected.isEmpty = true
  · rw [List.isEmpty_iff] at h
    subst h
    cases t <;> decide
  · cases t <;>
      simp [insertionOf, cursorOffsetOf, orDefault, h, List.length_append] <;>
      omega

/-- C10: for every insert type and in-range selection, `insertMarkdown`
returns the prefix before the selection, an insertion string, and the
suffix after the selection — the text outside the selection is
unchanged — and the returned cursor (a natural number, hence `≥ 0`)
never exceeds the returned text's length. -/
theorem insertMarkdown_frame_and_cursor (t : InsertType) (text : List Char)
    (selectionStart selectionEnd : Nat) (h1 : selectionStart ≤ selectionEnd)
    (h2 : selectionEnd ≤ text.length) :
    (∃ insertion : List Char,
      (insertMarkdown text t selectionStart selectionEnd).1 =
        text.take selectionStart ++ insertion ++ text.drop selectionEnd) ∧
    (insertMarkdown text t selectionStart selectionEnd).2 ≤
      (insertMarkdown text t selectionStart selectionEnd).1.length := by
  constructor
  · exact ⟨insertionOf t ((text.take selectionEnd).drop selectionStart), rfl⟩
  · have hlen : (text.take selectionStart).length = selectionStart := by
      rw [List.length_take, Nat.min_eq_left (h1.trans h2)]
    have hoff := cursorOffsetOf_le_length t ((text.take selectionEnd).drop selectionStart)
    show selectionStart +
        cursorOffsetOf t ((text.take selectionEnd).drop selectionStart) ≤
      (text.take selectionStart ++
        insertionOf t ((text.take selectionEnd).drop selectionStart) ++
        text.drop selectionEnd).length
    rw [List.length_append, List.length_append, hlen]
    omega

/-- Witness for `insertMarkdown_frame_and_cursor`: bolding the selection
(1, 3) of "hello". -/
theorem insertMarkdown_frame_and_cursor_witness :
    (∃ insertion : List Char,
      (insertMarkdown ("hello".toList) InsertType.bold 1 3).1 =
        ("hello".toList).take 1 ++ insertion ++ ("hello".toList).drop 3) ∧
    (insertMarkdown ("hello".toList) InsertType.bold 1 3).2 ≤
      (insertMarkdown ("hello".toList) InsertType.bold 1 3).1.length :=
  insertMarkdown_frame_and_cursor InsertType.bold ("hello".toList) 1 3
    (by decide) (by decide)
